import Mathlib

/-!
Verification of the outage-interval reconciliation engine of the
CHERKASY_PARSER repository.  Times of day are modelled as minutes
(0 .. 1440); schedule states are the string tokens used by the code.
The definitions below are shallow embeddings of the Python functions in
src/cek_scraper.py and src/cherkasy_telegram_parser.py.
-/

/-- A time slot (start, end) in minutes within one civil day,
as parsed from a string such as "07:00-10:00". -/
abbrev Slot := Nat × Nat

/-- Embeds the parse step of PowercutScraper.combine_time_slots:
the end string "24:00" is replaced by "23:59" (1440 becomes 1439). -/
def normEnd (e : Nat) : Nat := if e = 1440 then 1439 else e

/-- Lexicographic comparison of slots, mirroring the tuple ordering
used by the Python list sort of (start, end) datetime pairs. -/
def slotLe (a b : Slot) : Prop := a.1 < b.1 ∨ (a.1 = b.1 ∧ a.2 ≤ b.2)

instance slotLe.dec (a b : Slot) : Decidable (slotLe a b) := by
  unfold slotLe; infer_instance

/-- Insertion step of the sort used to model slots.sort(). -/
def insertSlot (x : Slot) : List Slot → List Slot
  | [] => [x]
  | y :: ys => if slotLe x y then x :: y :: ys else y :: insertSlot x ys

/-- Sorting of slots, modelling the Python slots.sort() (lexicographic on
(start, end); the result is unique because the order is antisymmetric). -/
def sortSlots : List Slot → List Slot
  | [] => []
  | x :: xs => insertSlot x (sortSlots xs)

/-- The linear sweep of PowercutScraper.combine_time_slots: the running
(current_start, current_end) pair absorbs the next slot when its start is
at most current_end, extending current_end to the max, otherwise the run
is flushed and a new run starts. -/
def mergeSweep (cs ce : Nat) : List Slot → List Slot
  | [] => [(cs, ce)]
  | (s, e) :: rest =>
    if s ≤ ce then mergeSweep cs (max ce e) rest
    else (cs, ce) :: mergeSweep s e rest

/-- PowercutScraper.combine_time_slots: parse (normalising a "24:00" end
to "23:59"), sort, then sweep-merge overlapping or contiguous slots.
Empty input yields an empty list. -/
def combine_time_slots (slots : List Slot) : List Slot :=
  match sortSlots (slots.map (fun p => (p.1, normEnd p.2))) with
  | [] => []
  | p :: rest => mergeSweep p.1 p.2 rest

/-- Membership of a minute instant in the closed union of a slot list. -/
def inSlots (t : Nat) (l : List Slot) : Prop :=
  ∃ p ∈ l, p.1 ≤ t ∧ t ≤ p.2

/-- Hour-state vectors, keyed by the hour number used in the JSON
("1" .. "24"); a dictionary in the source, a function here. -/
abbrev HoursF := Nat → String

/-- Dictionary update at one hour key. -/
def hupd (f : HoursF) (k : Nat) (v : String) : HoursF :=
  fun i => if i = k then v else f i

/-- PowercutScraper.create_default_hours: every hour set to "yes". -/
def create_default_hours : HoursF := fun _ => "yes"

/-- The per-hour-bucket body of PowercutScraper.create_hours_from_schedules
for one outage interval (os, oe) (minutes) and the bucket h (0-based):
no overlap leaves the state, a full-hour overlap forces "no",
a half confined to the first half promotes yes to first and second to no,
a half confined to the second half promotes yes to second and first to no,
an overlap straddling the midpoint is marked "no". -/
def hour_status (os oe : Nat) (h : Nat) (cur : String) : String :=
  if oe ≤ 60 * h ∨ 60 * (h + 1) ≤ os then cur
  else if 60 ≤ min oe (60 * (h + 1)) - max os (60 * h) then "no"
  else if 0 < min oe (60 * (h + 1)) - max os (60 * h) then
    if max os (60 * h) < 60 * h + 30 ∧ min oe (60 * (h + 1)) ≤ 60 * h + 30 then
      (if cur = "yes" then "first" else if cur = "second" then "no" else cur)
    else if 60 * h + 30 ≤ max os (60 * h) ∧ 60 * h + 30 < min oe (60 * (h + 1)) then
      (if cur = "yes" then "second" else if cur = "first" then "no" else cur)
    else "no"
  else cur

/-- The hour loop of create_hours_from_schedules for one interval: for each
0-based hour h (fuel counts the remaining hours), the dictionary entry at
key h+1 is rewritten from its current value. -/
def apply_slot_from (os oe : Nat) : Nat → Nat → HoursF → HoursF
  | _, 0, hs => hs
  | h, n + 1, hs =>
      apply_slot_from os oe (h + 1) n (hupd hs (h + 1) (hour_status os oe h (hs (h + 1))))

/-- One interval applied to an hour vector (24 buckets, keys 1..24). -/
def apply_slot_hours (os oe : Nat) (hs : HoursF) : HoursF :=
  apply_slot_from os oe 0 24 hs

/-- PowercutScraper.create_hours_from_schedules: start from all-"yes" and
apply every slot in order. -/
def create_hours_from_schedules (slots : List Slot) : HoursF :=
  slots.foldl (fun hs p => apply_slot_hours p.1 p.2 hs) create_default_hours

/-- The per-hour body of put_interval (cherkasy_telegram_parser.py):
with the shifted interval (t1, t2) and the 1-based hour key k, the flags
first and second select the written state; when neither holds the entry
is left alone.  The write is unconditional: it overwrites any previous
state for that key. -/
def put_hour (t1 t2 : Nat) (k : Nat) (cur : String) : String :=
  if (t1 < 60 * k + 30 ∧ 60 * k < t2) ∧ (t1 < 60 * (k + 1) ∧ 60 * k + 30 < t2) then "no"
  else if t1 < 60 * k + 30 ∧ 60 * k < t2 then "first"
  else if t1 < 60 * (k + 1) ∧ 60 * k + 30 < t2 then "second"
  else cur

/-- The hour loop of put_interval over keys k, k+1, ... (fuel-counted). -/
def put_interval_loop (t1 t2 : Nat) : Nat → Nat → HoursF → HoursF
  | _, 0, hs => hs
  | k, n + 1, hs =>
      put_interval_loop t1 t2 (k + 1) n (hupd hs k (put_hour t1 t2 k (hs k)))

/-- put_interval (cherkasy_telegram_parser.py): the interval is shifted by
one hour (the GPV convention, +60 minutes on each bound) and every hour
key 1..24 is visited. -/
def put_interval (t1 t2 : Nat) (hs : HoursF) : HoursF :=
  put_interval_loop (t1 + 60) (t2 + 60) 1 24 hs

/-- The end-of-day handling of parse_schedule_from_text
(cherkasy_telegram_parser.py lines 181-188): an end of 00:00 with a
positive start becomes the terminal instant 24:00 (1440); an end earlier
than the start wraps by a full day; otherwise the end is kept. -/
def wrap_end (t1 t2 : Nat) : Nat :=
  if t2 = 0 ∧ 0 < t1 then 1440
  else if t2 < t1 then t2 + 1440
  else t2

section ScanHelpers

/-- Index of the first slot satisfying a predicate. -/
def firstHit (p : Slot → Bool) : List Slot → Option Nat
  | [] => none
  | x :: xs => if p x then some 0 else (firstHit p xs).map (· + 1)

/-- Index of the last slot satisfying a predicate. -/
def lastHit (p : Slot → Bool) : List Slot → Option Nat
  | [] => none
  | x :: xs =>
    match lastHit p xs with
    | some j => some (j + 1)
    | none => if p x then some 0 else none

end ScanHelpers

/-- A slot in progress at the instant now: start ≤ now ≤ end. -/
def inProg (now : Nat) (p : Slot) : Prop := p.1 ≤ now ∧ now ≤ p.2

/-- A slot that ended within the two hour (120 minute) lookback window
before now. -/
def lookback2h (now : Nat) (p : Slot) : Prop := p.2 < now ∧ now - p.2 < 120

instance inProg.dec (now : Nat) (p : Slot) : Decidable (inProg now p) := by
  unfold inProg; infer_instance

instance lookback2h.dec (now : Nat) (p : Slot) : Decidable (lookback2h now p) := by
  unfold lookback2h; infer_instance

/-- The prolong-target loop of PowercutScraper.modify_time_slots: an
in-progress slot is returned at once (break); a slot that ended within the
last two hours overwrites the accumulator and the scan continues. -/
def prolongScanAux (now : Nat) : List Slot → Nat → Option Nat → Option Nat
  | [], _, acc => acc
  | (s, e) :: rest, idx, acc =>
    if s ≤ now ∧ now ≤ e then some idx
    else if e < now ∧ now - e < 120 then prolongScanAux now rest (idx + 1) (some idx)
    else prolongScanAux now rest (idx + 1) acc

/-- The slot index chosen by the prolong branch; when the scan found
nothing the last slot is the default. -/
def slot_to_modify_prolong (now : Nat) (slots : List Slot) : Nat :=
  (prolongScanAux now slots 0 none).getD (slots.length - 1)

/-- The early-start-target loop of modify_time_slots: the first slot whose
end has not yet passed. -/
def earlyScanAux (now : Nat) : List Slot → Nat → Option Nat
  | [], _ => none
  | (_, e) :: rest, idx => if now ≤ e then some idx else earlyScanAux now rest (idx + 1)

/-- The slot index chosen by the early_start branch; default the first. -/
def slot_to_modify_early (now : Nat) (slots : List Slot) : Nat :=
  (earlyScanAux now slots 0).getD 0

/-- PowercutScraper.modify_time_slots: empty input is returned unchanged;
a prolong replaces the end of the selected slot with the new time, an
early_start replaces the start of its selected slot, any other kind keeps
the slots; the result is recombined. -/
def modify_time_slots (now : Nat) (slots : List Slot) (modType : String) (modTime : Nat) : List Slot :=
  if slots = [] then slots
  else if modType = "prolong" then
    combine_time_slots (slots.set (slot_to_modify_prolong now slots)
      ((slots.getD (slot_to_modify_prolong now slots) (0, 0)).1, modTime))
  else if modType = "early_start" then
    combine_time_slots (slots.set (slot_to_modify_early now slots)
      (modTime, (slots.getD (slot_to_modify_early now slots) (0, 0)).2))
  else combine_time_slots slots

section AssocHelpers

variable {α β : Type} [DecidableEq α]

/-- Dictionary lookup on an association list (Python dict read). -/
def lookupA (l : List (α × β)) (k : α) : Option β :=
  match l with
  | [] => none
  | p :: rest => if p.1 = k then some p.2 else lookupA rest k

/-- Dictionary write: replace the stored value, or append a new key. -/
def setAssoc (l : List (α × β)) (k : α) (v : β) : List (α × β) :=
  match l with
  | [] => [(k, v)]
  | p :: rest => if p.1 = k then (k, v) :: rest else p :: setAssoc rest k v

/-- Dictionary delete (Python del d[k]). -/
def eraseAssoc (l : List (α × β)) (k : α) : List (α × β) :=
  match l with
  | [] => []
  | p :: rest => if p.1 = k then rest else p :: eraseAssoc rest k

end AssocHelpers

/-- One modification applied to the queue map of one date, embedding the
dispatch of PowercutScraper.apply_modifications (lines 252-279): the
"additional" kind appends a slot and recombines; otherwise, when the queue
already has an entry, the generic modify_time_slots branch runs (this is
the branch a cancel for an existing queue falls into); the dedicated
cancel branch is reached only when the queue has no entry. -/
def apply_one_mod (now : Nat) (qmap : List (Nat × List Slot)) (q : Nat)
    (modType : String) (t1 t2 : Nat) : List (Nat × List Slot) :=
  if modType = "additional" then
    setAssoc qmap q (combine_time_slots (((lookupA qmap q).getD []) ++ [(t1, t2)]))
  else if (lookupA qmap q).isSome then
    setAssoc qmap q (modify_time_slots now ((lookupA qmap q).getD []) modType t1)
  else if modType = "cancel" then
    if (lookupA qmap q).isSome then eraseAssoc qmap q else qmap
  else qmap

/-- Local midnight of the instant now (minutes since the epoch),
modelling datetime.now(kyiv).replace(hour=0, minute=0, ...). -/
def midnightOf (now : Nat) : Nat := now - now % 1440

/-- PowercutScraper.is_message_from_today: today ≤ ts < tomorrow. -/
def is_message_from_today (ts now : Nat) : Bool :=
  decide (midnightOf now ≤ ts ∧ ts < midnightOf now + 1440)

/-- The freshness test applied to a modification slot in scrape_messages:
the message must carry a timestamp and that timestamp must be from today. -/
def freshness (tsOpt : Option Nat) (now : Nat) : Bool :=
  match tsOpt with
  | some ts => is_message_from_today ts now
  | none => false

/-- One extracted item of a message: a plain schedule slot, or a
modification slot ("MOD:kind:data"). -/
inductive ParsedSlot where
  | plain (s : Slot)
  | modSlot (kind : String) (d : Slot)

/-- The per-queue loop of scrape_messages (lines 155-184) that separates
regular slots from modifications: a modification is kept only when the
freshness flag holds, a regular slot is always kept. -/
def split_regular_mods (fresh : Bool) : List ParsedSlot → List Slot × List (String × Slot)
  | [] => ([], [])
  | it :: rest =>
    let acc := split_regular_mods fresh rest
    match it with
    | .plain s => (s :: acc.1, acc.2)
    | .modSlot k d => if fresh then (acc.1, (k, d) :: acc.2) else acc

/-- The fact part of the persisted document: day-keyed data and the
Unix timestamp of the current local midnight. -/
structure FactT where
  data : List (Nat × List (String × HoursF))
  today : Nat

/-- The persisted document (the fields the reconciliation touches). -/
structure DocT where
  fact : FactT

/-- PowercutScraper.cleanup_old_data: every day key strictly before the
timestamp of the current local midnight is removed, and the today field
is set to that timestamp. -/
def cleanup_old_data (todayTs : Nat) (d : DocT) : DocT :=
  ⟨⟨d.fact.data.filter (fun kv => ¬ kv.1 < todayTs), todayTs⟩⟩

/-- PowercutScraper.create_json_structure (the fields modelled here):
empty data, today set to the current local midnight. -/
def create_json_structure (todayTs : Nat) : DocT := ⟨⟨[], todayTs⟩⟩

/-- PowercutScraper.get_queue_key: a whole queue number N maps to
"GPVN.1", a fractional number q.r maps to "GPVq.r". -/
def get_queue_key (intPart fracPart : Nat) : String :=
  if fracPart = 0 then "GPV" ++ toString intPart ++ ".1"
  else "GPV" ++ toString intPart ++ "." ++ toString fracPart

/-- The inner queue loop of generate_json: the queue key is initialised
with a default vector when absent (as the source does) and then
overwritten with the freshly quantized hour vector. -/
def merge_queue (dm : List (String × HoursF)) (qs : (Nat × Nat) × List Slot) :
    List (String × HoursF) :=
  setAssoc
    (if (lookupA dm (get_queue_key qs.1.1 qs.1.2)).isSome then dm
     else setAssoc dm (get_queue_key qs.1.1 qs.1.2) create_default_hours)
    (get_queue_key qs.1.1 qs.1.2) (create_hours_from_schedules qs.2)

/-- The outer date loop of generate_json: the day entry is created when
absent and every queue of that day is written into it. -/
def merge_day (acc : List (Nat × List (String × HoursF)))
    (day : Nat × List ((Nat × Nat) × List Slot)) :
    List (Nat × List (String × HoursF)) :=
  setAssoc acc day.1 (day.2.foldl merge_queue ((lookupA acc day.1).getD []))

/-- PowercutScraper.generate_json (the data-flow core): take the existing
document or a fresh structure, run cleanup_old_data, then for every
(dayTs, queue schedules) write the freshly quantized hour vectors into
the day map, and finally set the today field. -/
def generate_json (todayTs : Nat)
    (schedules : List (Nat × List ((Nat × Nat) × List Slot)))
    (existing : Option DocT) : DocT :=
  ⟨⟨schedules.foldl merge_day
      (cleanup_old_data todayTs (match existing with
        | some d => d
        | none => create_json_structure todayTs)).fact.data,
    todayTs⟩⟩

/-- Outcome of one run of the cherkasy parser main coroutine: completion
with an optional newly written document (none when the diff check reported
no change), or a raised exception. -/
inductive RunResult where
  | completed (written : Option DocT)
  | failed

/-- The __main__ entry block of cherkasy_telegram_parser.py: a successful
run leaves the newly written document (or the previous one when nothing
was written); a failed run removes the output file when it exists before
re-raising, leaving no document on storage. -/
def entry_block (prev : Option DocT) : RunResult → Option DocT
  | .completed (some d) => some d
  | .completed none => prev
  | .failed =>
    match prev with
    | some _ => none
    | none => none

/-- A concrete previously persisted document, used as the failing input of
the entry-block analysis. -/
def doc0 : DocT := ⟨⟨[(100, [])], 100⟩⟩

section EvalLemmas

/-- Pointwise value of the hour loop of create_hours_from_schedules: the
key j is rewritten exactly once, from its incoming value, when it lies in
the window of visited keys. -/
theorem apply_slot_from_eval (os oe : Nat) :
    ∀ (n h j : Nat) (hs : HoursF),
      apply_slot_from os oe h n hs j
        = if h + 1 ≤ j ∧ j ≤ h + n then hour_status os oe (j - 1) (hs j) else hs j := by
  intro n
  induction n with
  | zero =>
    intro h j hs
    rw [apply_slot_from, if_neg (by omega)]
  | succ n ih =>
    intro h j hs
    rw [apply_slot_from, ih]
    by_cases hk : j = h + 1
    · subst hk
      rw [if_neg (by omega), if_pos (by omega)]
      simp [hupd]
    · simp only [hupd, if_neg hk]
      by_cases hc : h + 1 ≤ j ∧ j ≤ h + (n + 1)
      · rw [if_pos (by omega), if_pos hc]
      · rw [if_neg (by omega), if_neg hc]

/-- Pointwise value of the hour loop of put_interval. -/
theorem put_interval_loop_eval (t1 t2 : Nat) :
    ∀ (n k j : Nat) (hs : HoursF),
      put_interval_loop t1 t2 k n hs j
        = if k ≤ j ∧ j < k + n then put_hour t1 t2 j (hs j) else hs j := by
  intro n
  induction n with
  | zero =>
    intro k j hs
    rw [put_interval_loop, if_neg (by omega)]
  | succ n ih =>
    intro k j hs
    rw [put_interval_loop, ih]
    by_cases hk : j = k
    · subst hk
      rw [if_neg (by omega), if_pos (by omega)]
      simp [hupd]
    · simp only [hupd, if_neg hk]
      by_cases hc : k ≤ j ∧ j < k + (n + 1)
      · rw [if_pos (by omega), if_pos hc]
      · rw [if_neg (by omega), if_neg hc]

end EvalLemmas

section SplitLemmas

/-- The regular slots extracted by the scrape loop do not depend on the
freshness flag, which only gates the modification list. -/
theorem split_fst_indep (b : Bool) :
    ∀ items : List ParsedSlot,
      (split_regular_mods b items).1 = (split_regular_mods false items).1 := by
  intro items
  induction items with
  | nil => rfl
  | cons it rest ih =>
    cases it with
    | plain s => simp only [split_regular_mods, ih]
    | modSlot k d =>
      cases b with
      | false => rfl
      | true => simpa [split_regular_mods] using ih

/-- With a false freshness flag the scrape loop keeps no modification. -/
theorem split_false_no_mods :
    ∀ items : List ParsedSlot, (split_regular_mods false items).2 = [] := by
  intro items
  induction items with
  | nil => rfl
  | cons it rest ih =>
    cases it with
    | plain s => simpa [split_regular_mods] using ih
    | modSlot k d => simpa [split_regular_mods] using ih

end SplitLemmas

/-- Claim C1: evaluation at the failing input.  A cancel modification for
queue 1, which holds the merged interval 07:00-10:00, leaves the queue and
its interval in place: the dedicated cancel branch of apply_modifications
is shadowed by the generic modify branch whenever the queue has an entry,
and modify_time_slots returns the slots unchanged for the cancel kind.
For a queue with no entry the cancel is a no-op, as the claim states. -/
theorem C1_cancel_evaluation :
    apply_one_mod 0 [(1, [(420, 600)])] 1 "cancel" 0 0 = [(1, [(420, 600)])]
  ∧ lookupA (apply_one_mod 0 [(1, [(420, 600)])] 1 "cancel" 0 0) 1 = some [(420, 600)]
  ∧ apply_one_mod 0 ([] : List (Nat × List Slot)) 1 "cancel" 0 0 = [] := by
  refine ⟨by decide, by decide, by decide⟩

/-- Claim C2, counterexample: in the put_interval implementation the two
half-hour fragments 07:00-07:30 and 07:30-08:00 do not leave bucket 8 in
state "no"; the later fragment overwrites the recorded half, so the bucket
ends as "second" in one order and "first" in the other. -/
theorem C2_counterexample :
    put_interval 450 480 (put_interval 420 450 (fun _ => "yes")) 8 = "second"
  ∧ put_interval 420 450 (put_interval 450 480 (fun _ => "yes")) 8 = "first"
  ∧ ¬ put_interval 450 480 (put_interval 420 450 (fun _ => "yes")) 8 = "no" := by
  refine ⟨by decide, by decide, by decide⟩

/-- Claim C2, amended: the hour quantizer create_hours_from_schedules does
promote the two half-hour fragments to "no" for bucket 8 in either order;
the put_interval implementation instead overwrites the recorded half,
ending in "second" or "first" depending on the order. -/
theorem C2_amended_half_hour_promotion :
    create_hours_from_schedules [(420, 450), (450, 480)] 8 = "no"
  ∧ create_hours_from_schedules [(450, 480), (420, 450)] 8 = "no"
  ∧ put_interval 450 480 (put_interval 420 450 (fun _ => "yes")) 8 = "second"
  ∧ put_interval 420 450 (put_interval 450 480 (fun _ => "yes")) 8 = "first" := by
  refine ⟨by decide, by decide, by decide, by decide⟩

/-- Claim C4, counterexample: when the run fails with a valid previously
persisted document on storage, the entry block of the cherkasy parser does
not leave that document intact: the exception handler removes the output
file. -/
theorem C4_counterexample :
    entry_block (some doc0) RunResult.failed ≠ some doc0 := by
  intro h
  simp only [entry_block] at h
  exact Option.noConfusion h

/-- Claim C4, amended: a failed run always leaves storage without any
document: the exception handler of the entry block deletes the output
file when it exists, so the previous document never survives a failure. -/
theorem C4_amended_failed_run_deletes (prev : Option DocT) :
    entry_block prev RunResult.failed = none := by
  cases prev with
  | none => rfl
  | some d => rfl

/-- Claim C10: a queue number that is numerically an integer N is folded
into subqueue .1, producing the key "GPVN.1", identical to the key of
queue N.1; for a fractional queue number q.r the key is "GPVq.r". -/
theorem C10_queue_key (n r : Nat) (hr : r ≠ 0) :
    get_queue_key n 0 = "GPV" ++ toString n ++ ".1"
  ∧ get_queue_key n 0 = get_queue_key n 1
  ∧ get_queue_key n r = "GPV" ++ toString n ++ "." ++ toString r := by
  refine ⟨rfl, ?_, ?_⟩
  · have h2 : ("." : String) ++ toString (1 : Nat) = ".1" := by decide
    have h1 : get_queue_key n 1 = ("GPV" ++ toString n) ++ ("." ++ toString 1) := by
      rw [get_queue_key, if_neg (by decide : ¬ (1 : Nat) = 0), String.append_assoc]
    rw [h1, h2, get_queue_key, if_pos rfl]
  · rw [get_queue_key, if_neg hr]

/-- Witness for C10 at the concrete queues 3 and 3.2. -/
theorem C10_queue_key_witness :
    get_queue_key 3 0 = "GPV" ++ toString 3 ++ ".1"
  ∧ get_queue_key 3 0 = get_queue_key 3 1
  ∧ get_queue_key 3 2 = "GPV" ++ toString 3 ++ "." ++ toString 2 :=
  C10_queue_key 3 2 (by decide)

/-- Claim C5: a modification slot carried by a message whose timestamp is
outside the civil window of the current processing day is dropped: the
freshness test is false, no modification is kept, and the regular slots,
hence the underlying interval set, are exactly those obtained without any
accepted modification. -/
theorem C5_freshness_gate (now ts : Nat) (items : List ParsedSlot)
    (h : ts < midnightOf now ∨ midnightOf now + 1440 ≤ ts) :
    is_message_from_today ts now = false
  ∧ (split_regular_mods (freshness (some ts) now) items).2 = []
  ∧ (split_regular_mods (freshness (some ts) now) items).1
      = (split_regular_mods false items).1 := by
  have hf : is_message_from_today ts now = false := by
    unfold is_message_from_today
    simp only [decide_eq_false_iff_not]
    rintro ⟨h1, h2⟩
    rcases h with h | h <;> omega
  have hfr : freshness (some ts) now = false := by
    simp only [freshness, hf]
  rw [hfr]
  exact ⟨hf, split_false_no_mods items, rfl⟩

/-- Witness for C5: a message stamped yesterday (ts = 100, now = 2000,
local midnight 1440) drops its prolong modification and leaves the
regular slot untouched. -/
theorem C5_freshness_gate_witness :
    is_message_from_today 100 2000 = false
  ∧ (split_regular_mods (freshness (some 100) 2000)
      [ParsedSlot.plain (420, 600), ParsedSlot.modSlot "prolong" (780, 0)]).2 = []
  ∧ (split_regular_mods (freshness (some 100) 2000)
      [ParsedSlot.plain (420, 600), ParsedSlot.modSlot "prolong" (780, 0)]).1
      = (split_regular_mods false
      [ParsedSlot.plain (420, 600), ParsedSlot.modSlot "prolong" (780, 0)]).1 :=
  C5_freshness_gate 2000 100 _ (by decide)

/-- Claim C3: an announced end of "24:00" is treated as the terminal
instant of the same civil day.  combine_time_slots turns the end 24:00
(1440) into 23:59 (1439); every merged end stays inside the day; the cek
quantizer marks the final hour bucket (key 24) "no" for such an interval;
and on the cherkasy side the parsed end 24:00 is not wrapped into the next
day and put_interval also marks bucket 24 "no". -/
theorem C3_end_of_day (s : Nat) (hs : s ≤ 1380) :
    combine_time_slots [(s, 1440)] = [(s, 1439)]
  ∧ (∀ p ∈ combine_time_slots [(s, 1440)], p.2 < 1440)
  ∧ create_hours_from_schedules [(s, 1439)] 24 = "no"
  ∧ wrap_end s 1440 = 1440
  ∧ put_interval s 1440 (fun _ => "yes") 24 = "no" := by
  have hc : combine_time_slots [(s, 1440)] = [(s, 1439)] := rfl
  refine ⟨hc, ?_, ?_, ?_, ?_⟩
  · rw [hc]
    intro p hp
    have hp2 := List.mem_singleton.mp hp
    subst hp2
    omega
  · show apply_slot_from s 1439 0 24 create_default_hours 24 = "no"
    rw [apply_slot_from_eval, if_pos (by omega)]
    show hour_status s 1439 23 "yes" = "no"
    rw [hour_status, if_neg (by omega), if_neg (by omega), if_pos (by omega),
        if_neg (by omega), if_neg (by omega)]
  · rw [wrap_end, if_neg (by omega), if_neg (by omega)]
  · show put_interval_loop (s + 60) (1440 + 60) 1 24 (fun _ => "yes") 24 = "no"
    rw [put_interval_loop_eval, if_pos (by omega)]
    show put_hour (s + 60) 1500 24 "yes" = "no"
    rw [put_hour, if_pos (by omega)]

/-- Witness for C3 at the interval 23:00-24:00. -/
theorem C3_end_of_day_witness :
    combine_time_slots [(1380, 1440)] = [(1380, 1439)]
  ∧ (∀ p ∈ combine_time_slots [(1380, 1440)], p.2 < 1440)
  ∧ create_hours_from_schedules [(1380, 1439)] 24 = "no"
  ∧ wrap_end 1380 1440 = 1440
  ∧ put_interval 1380 1440 (fun _ => "yes") 24 = "no" :=
  C3_end_of_day 1380 (by decide)

section MergeLemmas

instance : DecidableRel slotLe := slotLe.dec

instance slotLe.total : IsTotal Slot slotLe := by
  constructor
  intro a b
  unfold slotLe
  omega

instance slotLe.trans : IsTrans Slot slotLe := by
  constructor
  intro a b c
  unfold slotLe
  omega

/-- The hand-rolled insertion coincides with List.orderedInsert. -/
theorem insertSlot_eq_orderedInsert (x : Slot) :
    ∀ l, insertSlot x l = List.orderedInsert slotLe x l := by
  intro l
  induction l with
  | nil => rfl
  | cons y ys ih => simp only [insertSlot, List.orderedInsert, ih]

/-- The hand-rolled sort coincides with List.insertionSort. -/
theorem sortSlots_eq_insertionSort :
    ∀ l, sortSlots l = List.insertionSort slotLe l := by
  intro l
  induction l with
  | nil => rfl
  | cons y ys ih => simp only [sortSlots, List.insertionSort, ih, insertSlot_eq_orderedInsert]

/-- sortSlots permutes its input. -/
theorem sortSlots_perm (l : List Slot) : List.Perm (sortSlots l) l := by
  rw [sortSlots_eq_insertionSort]
  exact List.perm_insertionSort slotLe l

/-- Unfolding of inSlots over a cons cell. -/
theorem inSlots_cons (t : Nat) (x : Slot) (xs : List Slot) :
    inSlots t (x :: xs) ↔ (x.1 ≤ t ∧ t ≤ x.2) ∨ inSlots t xs := by
  simp [inSlots, List.mem_cons, or_and_right, exists_or]

/-- sortSlots is sorted for the lexicographic order. -/
theorem sortSlots_sorted (l : List Slot) : List.Sorted slotLe (sortSlots l) := by
  rw [sortSlots_eq_insertionSort]
  exact List.sorted_insertionSort slotLe l

/-- A list already sorted is a fixed point of sortSlots. -/
theorem sortSlots_of_sorted {l : List Slot} (h : List.Sorted slotLe l) :
    sortSlots l = l := by
  rw [sortSlots_eq_insertionSort]
  exact h.insertionSort_eq

/-- The sweep always returns a run starting at the current start. -/
theorem mergeSweep_shape : ∀ (l : List Slot) (cs ce : Nat),
    ∃ e2 t, mergeSweep cs ce l = (cs, e2) :: t := by
  intro l
  induction l with
  | nil => intro cs ce; exact ⟨ce, [], rfl⟩
  | cons p rest ih =>
    intro cs ce
    obtain ⟨s, e⟩ := p
    rw [mergeSweep]
    by_cases hse : s ≤ ce
    · rw [if_pos hse]; exact ih cs (max ce e)
    · rw [if_neg hse]
      obtain ⟨e2, t, h⟩ := ih s e
      exact ⟨ce, mergeSweep s e rest, rfl⟩

/-- Helper: a chain of starts can be restarted from a smaller start. -/
theorem chain_start_weaken {s z z2 : Nat} {rest : List Slot} {e : Nat}
    (h : List.Chain (fun a b : Slot => a.1 ≤ b.1) (s, e) rest) (hz : z ≤ s) :
    List.Chain (fun a b : Slot => a.1 ≤ b.1) (z, z2) rest := by
  cases rest with
  | nil => exact List.Chain.nil
  | cons r rs =>
    cases h with
    | cons hr hc => exact List.Chain.cons (le_trans hz hr) hc

/-- Under a start-sorted input the sweep output is start-sorted and
gap-separated: each flushed run ends strictly before the next begins. -/
theorem mergeSweep_chain : ∀ (l : List Slot) (cs ce : Nat),
    List.Chain (fun a b : Slot => a.1 ≤ b.1) (cs, ce) l →
    List.Chain' (fun a b : Slot => a.1 ≤ b.1 ∧ a.2 < b.1) (mergeSweep cs ce l) := by
  intro l
  induction l with
  | nil => intro cs ce _; simp [mergeSweep]
  | cons p rest ih =>
    intro cs ce hch
    obtain ⟨s, e⟩ := p
    cases hch with
    | cons hcs hrest =>
      rw [mergeSweep]
      by_cases hse : s ≤ ce
      · rw [if_pos hse]
        exact ih cs (max ce e) (chain_start_weaken hrest hcs)
      · rw [if_neg hse]
        obtain ⟨e2, t, hsh⟩ := mergeSweep_shape rest s e
        have htail := ih s e hrest
        rw [hsh] at htail ⊢
        exact List.Chain'.cons ⟨hcs, by omega⟩ htail

/-- The sweep preserves well-formedness of slots. -/
theorem mergeSweep_wf : ∀ (l : List Slot) (cs ce : Nat),
    cs ≤ ce → (∀ p ∈ l, p.1 ≤ p.2) →
    ∀ p ∈ mergeSweep cs ce l, p.1 ≤ p.2 := by
  intro l
  induction l with
  | nil =>
    intro cs ce hce _ p hp
    rw [mergeSweep] at hp
    have := List.mem_singleton.mp hp
    subst this
    exact hce
  | cons q rest ih =>
    intro cs ce hce hwf p hp
    obtain ⟨s, e⟩ := q
    rw [mergeSweep] at hp
    by_cases hse : s ≤ ce
    · rw [if_pos hse] at hp
      exact ih cs (max ce e) (le_trans hce (Nat.le_max_left ce e))
        (fun r hr => hwf r (List.mem_cons_of_mem _ hr)) p hp
    · rw [if_neg hse] at hp
      rcases List.mem_cons.mp hp with hh | ht
      · subst hh; exact hce
      · exact ih s e (hwf (s, e) (List.mem_cons_self _ _))
          (fun r hr => hwf r (List.mem_cons_of_mem _ hr)) p ht

/-- Every end produced by the sweep is the running end or an input end. -/
theorem mergeSweep_ends : ∀ (l : List Slot) (cs ce : Nat),
    ∀ p ∈ mergeSweep cs ce l, p.2 = ce ∨ ∃ q ∈ l, p.2 = q.2 := by
  intro l
  induction l with
  | nil =>
    intro cs ce p hp
    rw [mergeSweep] at hp
    have := List.mem_singleton.mp hp
    subst this
    exact Or.inl rfl
  | cons q rest ih =>
    intro cs ce p hp
    obtain ⟨s, e⟩ := q
    rw [mergeSweep] at hp
    by_cases hse : s ≤ ce
    · rw [if_pos hse] at hp
      rcases ih cs (max ce e) p hp with hm | ⟨r, hr, he⟩
      · rcases Nat.le_total ce e with h1 | h1
        · rw [Nat.max_eq_right h1] at hm
          exact Or.inr ⟨(s, e), List.mem_cons_self _ _, hm⟩
        · rw [Nat.max_eq_left h1] at hm
          exact Or.inl hm
      · exact Or.inr ⟨r, List.mem_cons_of_mem _ hr, he⟩
    · rw [if_neg hse] at hp
      rcases List.mem_cons.mp hp with hh | ht
      · subst hh; exact Or.inl rfl
      · rcases ih s e p ht with hm | ⟨r, hr, he⟩
        · exact Or.inr ⟨(s, e), List.mem_cons_self _ _, hm⟩
        · exact Or.inr ⟨r, List.mem_cons_of_mem _ hr, he⟩

/-- The closed union of instants is preserved by the sweep. -/
theorem mergeSweep_union : ∀ (l : List Slot) (cs ce : Nat),
    List.Chain (fun a b : Slot => a.1 ≤ b.1) (cs, ce) l →
    ∀ t, ((cs ≤ t ∧ t ≤ ce) ∨ inSlots t l) ↔ inSlots t (mergeSweep cs ce l) := by
  intro l
  induction l with
  | nil =>
    intro cs ce _ t
    rw [mergeSweep]
    simp [inSlots]
  | cons q rest ih =>
    intro cs ce hch t
    obtain ⟨s, e⟩ := q
    cases hch with
    | cons hcs hrest =>
      rw [mergeSweep]
      by_cases hse : s ≤ ce
      · rw [if_pos hse, ← ih cs (max ce e) (chain_start_weaken hrest hcs) t,
          inSlots_cons]
        dsimp only at hcs ⊢
        constructor
        · rintro (h1 | (h2 | h3))
          · left; omega
          · left; omega
          · right; exact h3
        · rintro (h1 | h3)
          · by_cases hte : t ≤ ce
            · left; omega
            · right; left; omega
          · right; right; exact h3
      · rw [if_neg hse, inSlots_cons, inSlots_cons, ← ih s e hrest t]

/-- A gap-separated list is a fixed point of the sweep. -/
theorem mergeSweep_gap_id : ∀ (l : List Slot) (cs ce : Nat),
    List.Chain (fun a b : Slot => a.2 < b.1) (cs, ce) l →
    mergeSweep cs ce l = (cs, ce) :: l := by
  intro l
  induction l with
  | nil => intro cs ce _; rfl
  | cons q rest ih =>
    intro cs ce hch
    obtain ⟨s, e⟩ := q
    cases hch with
    | cons h1 h2 =>
      rw [mergeSweep, if_neg (by simp only at h1; omega)]
      rw [ih s e h2]

end MergeLemmas

section CombineLemmas

/-- The normalised end is never the wrapped value 1440. -/
theorem normEnd_ne (e : Nat) : normEnd e ≠ 1440 := by
  unfold normEnd
  split <;> omega

/-- Dispatch: an empty sort result gives an empty merge. -/
theorem combine_eq_nil_of_sorted_nil {S : List Slot}
    (hs : sortSlots (S.map (fun p => (p.1, normEnd p.2))) = []) :
    combine_time_slots S = [] := by
  rw [combine_time_slots, hs]

/-- Dispatch: a nonempty sort result hands its head to the sweep. -/
theorem combine_eq_sweep {S : List Slot} {qs qe : Nat} {rest : List Slot}
    (hs : sortSlots (S.map (fun p => (p.1, normEnd p.2))) = (qs, qe) :: rest) :
    combine_time_slots S = mergeSweep qs qe rest := by
  rw [combine_time_slots, hs]

/-- The merged output is nonempty whenever the input is. -/
theorem combine_ne_nil (S : List Slot) (hne : S ≠ []) :
    combine_time_slots S ≠ [] := by
  rcases hs : sortSlots (S.map (fun p => (p.1, normEnd p.2))) with _ | ⟨⟨qs, qe⟩, rest⟩
  · exfalso
    have hperm := sortSlots_perm (S.map (fun p => (p.1, normEnd p.2)))
    rw [hs] at hperm
    have hmap := hperm.symm.eq_nil
    exact hne (List.map_eq_nil_iff.mp hmap)
  · rw [combine_eq_sweep hs]
    obtain ⟨e2, t, hsh⟩ := mergeSweep_shape rest qs qe
    rw [hsh]
    exact List.cons_ne_nil _ _

/-- The merged output is start-sorted with a strict gap between
consecutive runs: no two remaining slots satisfy the merge condition. -/
theorem combine_chain (S : List Slot) :
    List.Chain' (fun a b : Slot => a.1 ≤ b.1 ∧ a.2 < b.1) (combine_time_slots S) := by
  rcases hs : sortSlots (S.map (fun p => (p.1, normEnd p.2))) with _ | ⟨⟨qs, qe⟩, rest⟩
  · rw [combine_eq_nil_of_sorted_nil hs]
    exact List.chain'_nil
  · rw [combine_eq_sweep hs]
    have hsorted := sortSlots_sorted (S.map (fun p => (p.1, normEnd p.2)))
    rw [hs] at hsorted
    have h1 : List.Chain slotLe (qs, qe) rest := hsorted.chain'
    exact mergeSweep_chain rest qs qe
      (h1.imp (fun a b hab => by unfold slotLe at hab; omega))

/-- Every merged slot is well formed when the normalised inputs are. -/
theorem combine_wf (S : List Slot) (hwf : ∀ p ∈ S, p.1 ≤ normEnd p.2) :
    ∀ p ∈ combine_time_slots S, p.1 ≤ p.2 := by
  rcases hs : sortSlots (S.map (fun p => (p.1, normEnd p.2))) with _ | ⟨⟨qs, qe⟩, rest⟩
  · rw [combine_eq_nil_of_sorted_nil hs]
    intro p hp
    exact absurd hp (List.not_mem_nil p)
  · rw [combine_eq_sweep hs]
    have hmem : ∀ r ∈ (qs, qe) :: rest, r.1 ≤ r.2 := by
      intro r hr
      have h1 : r ∈ sortSlots (S.map (fun p => (p.1, normEnd p.2))) := by
        rw [hs]; exact hr
      have h2 : r ∈ S.map (fun p => (p.1, normEnd p.2)) :=
        (sortSlots_perm _).mem_iff.mp h1
      obtain ⟨p0, hp0, hp0e⟩ := List.mem_map.mp h2
      subst hp0e
      exact hwf p0 hp0
    exact mergeSweep_wf rest qs qe (hmem _ (List.mem_cons_self _ _))
      (fun r hr => hmem r (List.mem_cons_of_mem _ hr))

/-- No merged slot ends at the wrapped value 1440. -/
theorem combine_ends_ne (S : List Slot) :
    ∀ p ∈ combine_time_slots S, p.2 ≠ 1440 := by
  rcases hs : sortSlots (S.map (fun p => (p.1, normEnd p.2))) with _ | ⟨⟨qs, qe⟩, rest⟩
  · rw [combine_eq_nil_of_sorted_nil hs]
    intro p hp
    exact absurd hp (List.not_mem_nil p)
  · rw [combine_eq_sweep hs]
    have hend : ∀ r ∈ (qs, qe) :: rest, r.2 ≠ 1440 := by
      intro r hr
      have h1 : r ∈ sortSlots (S.map (fun p => (p.1, normEnd p.2))) := by
        rw [hs]; exact hr
      have h2 : r ∈ S.map (fun p => (p.1, normEnd p.2)) :=
        (sortSlots_perm _).mem_iff.mp h1
      obtain ⟨p0, _, hp0e⟩ := List.mem_map.mp h2
      subst hp0e
      exact normEnd_ne p0.2
    intro p hp
    rcases mergeSweep_ends rest qs qe p hp with h | ⟨q2, hq2, he⟩
    · rw [h]
      exact hend _ (List.mem_cons_self _ _)
    · rw [he]
      exact hend q2 (List.mem_cons_of_mem _ hq2)

/-- The merged output covers exactly the instants of the normalised
input slots. -/
theorem combine_union (S : List Slot) :
    ∀ t, inSlots t (S.map (fun p => (p.1, normEnd p.2)))
      ↔ inSlots t (combine_time_slots S) := by
  intro t
  rcases hs : sortSlots (S.map (fun p => (p.1, normEnd p.2))) with _ | ⟨⟨qs, qe⟩, rest⟩
  · have hperm := sortSlots_perm (S.map (fun p => (p.1, normEnd p.2)))
    rw [hs] at hperm
    rw [combine_eq_nil_of_sorted_nil hs, hperm.symm.eq_nil]
  · rw [combine_eq_sweep hs]
    have hperm := sortSlots_perm (S.map (fun p => (p.1, normEnd p.2)))
    rw [hs] at hperm
    have hiff : inSlots t (S.map (fun p => (p.1, normEnd p.2)))
        ↔ inSlots t ((qs, qe) :: rest) := by
      unfold inSlots
      constructor
      · rintro ⟨p, hp, h⟩
        exact ⟨p, hperm.mem_iff.mpr hp, h⟩
      · rintro ⟨p, hp, h⟩
        exact ⟨p, hperm.mem_iff.mp hp, h⟩
    rw [hiff, inSlots_cons]
    have hsorted := sortSlots_sorted (S.map (fun p => (p.1, normEnd p.2)))
    rw [hs] at hsorted
    have h1 : List.Chain slotLe (qs, qe) rest := hsorted.chain'
    exact mergeSweep_union rest qs qe
      (h1.imp (fun a b hab => by unfold slotLe at hab; omega)) t

/-- In a gap-chained well-formed list every later slot starts strictly
after the end of the leading slot. -/
theorem chain_gap_all (a : Slot) :
    ∀ l, List.Chain (fun x y : Slot => x.1 ≤ y.1 ∧ x.2 < y.1) a l →
      (∀ p ∈ l, p.1 ≤ p.2) → ∀ b ∈ l, a.2 < b.1 := by
  intro l
  induction l generalizing a with
  | nil =>
    intro _ _ b hb
    exact absurd hb (List.not_mem_nil b)
  | cons c m ih =>
    intro hch hwf b hb
    cases hch with
    | cons h1 h2 =>
      rcases List.mem_cons.mp hb with hh | hm
      · subst hh; exact h1.2
      · have hc2 := ih c h2 (fun p hp => hwf p (List.mem_cons_of_mem _ hp)) b hm
        have hwc := hwf c (List.mem_cons_self _ _)
        omega

/-- A gap-chained well-formed list is sorted for the lexicographic
order. -/
theorem chain_to_sorted : ∀ l : List Slot,
    List.Chain' (fun a b : Slot => a.1 ≤ b.1 ∧ a.2 < b.1) l →
    (∀ p ∈ l, p.1 ≤ p.2) →
    List.Sorted slotLe l := by
  intro l
  induction l with
  | nil => exact fun _ _ => List.sorted_nil
  | cons a m ih =>
    intro hch hwf
    have hc : List.Chain (fun a b : Slot => a.1 ≤ b.1 ∧ a.2 < b.1) a m := hch
    have htail : List.Chain' (fun a b : Slot => a.1 ≤ b.1 ∧ a.2 < b.1) m := by
      cases m with
      | nil => exact List.chain'_nil
      | cons b k =>
        cases hc with
        | cons _ h2 => exact h2
    refine List.Pairwise.cons ?_ (ih htail (fun p hp => hwf p (List.mem_cons_of_mem _ hp)))
    intro b hb
    have hgap := chain_gap_all a m hc (fun p hp => hwf p (List.mem_cons_of_mem _ hp)) b hb
    have hwa := hwf a (List.mem_cons_self _ _)
    unfold slotLe
    omega

/-- A canonical list (gap-chained, well formed, no 1440 end) is a fixed
point of combine_time_slots. -/
theorem canonical_fixed (l : List Slot)
    (hchain : List.Chain' (fun a b : Slot => a.1 ≤ b.1 ∧ a.2 < b.1) l)
    (hwf : ∀ p ∈ l, p.1 ≤ p.2)
    (hend : ∀ p ∈ l, p.2 ≠ 1440) :
    combine_time_slots l = l := by
  have hmap : l.map (fun p => (p.1, normEnd p.2)) = l := by
    have hcg : ∀ p ∈ l, (fun p : Slot => (p.1, normEnd p.2)) p = id p := by
      intro p hp
      have hp2 := hend p hp
      simp only [normEnd, if_neg hp2, Prod.mk.eta, id_eq]
    rw [List.map_congr_left hcg, List.map_id]
  have hsorted := chain_to_sorted l hchain hwf
  have hsort : sortSlots l = l := sortSlots_of_sorted hsorted
  rw [combine_time_slots, hmap, hsort]
  cases l with
  | nil => rfl
  | cons a m =>
    have hc : List.Chain (fun a b : Slot => a.1 ≤ b.1 ∧ a.2 < b.1) a m := hchain
    have hgap : List.Chain (fun x y : Slot => x.2 < y.1) a m :=
      hc.imp (fun x y h => h.2)
    obtain ⟨as2, ae2⟩ := a
    exact mergeSweep_gap_id m as2 ae2 hgap

end CombineLemmas

/-- Claim C7: for a non-empty list of raw intervals the merge produces a
non-empty, start-sorted cover in which consecutive slots are separated by
a strict gap (so no two remaining slots satisfy the merge condition
start ≤ end, and every mergeable pair has been merged), covering exactly
the instants of the (parse-normalised) input; in particular the inputs
07:00-10:00 and 09:30-12:00 merge to 07:00-12:00. -/
theorem C7_merge_minimal_cover (S : List Slot) (hne : S ≠ []) :
    combine_time_slots S ≠ []
  ∧ List.Chain' (fun a b : Slot => a.1 ≤ b.1 ∧ a.2 < b.1) (combine_time_slots S)
  ∧ (∀ t, inSlots t (S.map (fun p => (p.1, normEnd p.2)))
      ↔ inSlots t (combine_time_slots S))
  ∧ combine_time_slots [(420, 600), (570, 720)] = [(420, 720)] :=
  ⟨combine_ne_nil S hne, combine_chain S, combine_union S, by decide⟩

/-- Witness for C7 at the scenario-A input. -/
theorem C7_merge_minimal_cover_witness :
    combine_time_slots [(420, 600), (570, 720)] ≠ []
  ∧ List.Chain' (fun a b : Slot => a.1 ≤ b.1 ∧ a.2 < b.1)
      (combine_time_slots [(420, 600), (570, 720)])
  ∧ (∀ t, inSlots t ([(420, 600), (570, 720)].map (fun p => (p.1, normEnd p.2)))
      ↔ inSlots t (combine_time_slots [(420, 600), (570, 720)]))
  ∧ combine_time_slots [(420, 600), (570, 720)] = [(420, 720)] :=
  C7_merge_minimal_cover [(420, 600), (570, 720)] (by decide)

/-- Claim C9: the interval merge is idempotent on interval sets (start
at most normalised end, as the data model guarantees start < end):
merging the already merged result returns it unchanged. -/
theorem C9_merge_idempotent (S : List Slot)
    (hwf : ∀ p ∈ S, p.1 ≤ normEnd p.2) :
    combine_time_slots (combine_time_slots S) = combine_time_slots S :=
  canonical_fixed _ (combine_chain S) (combine_wf S hwf) (combine_ends_ne S)

/-- Witness for C9 at a three-interval input with an overlap and a
24:00 end. -/
theorem C9_merge_idempotent_witness :
    combine_time_slots (combine_time_slots [(420, 600), (570, 720), (1320, 1440)])
      = combine_time_slots [(420, 600), (570, 720), (1320, 1440)] :=
  C9_merge_idempotent [(420, 600), (570, 720), (1320, 1440)] (by decide)

section ProlongLemmas

/-- Boolean form of the in-progress test. -/
def inProgB (now : Nat) (p : Slot) : Bool := decide (inProg now p)

/-- Boolean form of the two-hour lookback test. -/
def lookbackB (now : Nat) (p : Slot) : Bool := decide (lookback2h now p)

/-- firstHit misses a list in which the predicate never holds. -/
theorem firstHit_of_all_false (p : Slot → Bool) :
    ∀ l : List Slot, (∀ x ∈ l, p x = false) → firstHit p l = none := by
  intro l
  induction l with
  | nil => intro _; rfl
  | cons x xs ih =>
    intro h
    rw [firstHit, if_neg (by simp [h x (List.mem_cons_self _ _)]),
      ih (fun y hy => h y (List.mem_cons_of_mem _ hy))]
    rfl

/-- lastHit misses a list in which the predicate never holds. -/
theorem lastHit_of_all_false (p : Slot → Bool) :
    ∀ l : List Slot, (∀ x ∈ l, p x = false) → lastHit p l = none := by
  intro l
  induction l with
  | nil => intro _; rfl
  | cons x xs ih =>
    intro h
    rw [lastHit, ih (fun y hy => h y (List.mem_cons_of_mem _ hy))]
    simp [h x (List.mem_cons_self _ _)]

/-- A missed firstHit means the predicate is false throughout. -/
theorem firstHit_none_all (p : Slot → Bool) :
    ∀ l : List Slot, firstHit p l = none → ∀ x ∈ l, p x = false := by
  intro l
  induction l with
  | nil => intro _ x hx; exact absurd hx (List.not_mem_nil x)
  | cons y ys ih =>
    intro h x hx
    rw [firstHit] at h
    by_cases hy : p y = true
    · rw [if_pos hy] at h
      exact absurd h (by simp)
    · rw [if_neg hy] at h
      have hrest : firstHit p ys = none := by
        rcases hf : firstHit p ys with _ | k
        · rfl
        · rw [hf] at h; exact absurd h (by simp)
      rcases List.mem_cons.mp hx with hh | hm
      · subst hh; simpa using hy
      · exact ih hrest x hm

/-- A missed lastHit means the predicate is false throughout. -/
theorem lastHit_none_all (p : Slot → Bool) :
    ∀ l : List Slot, lastHit p l = none → ∀ x ∈ l, p x = false := by
  intro l
  induction l with
  | nil => intro _ x hx; exact absurd hx (List.not_mem_nil x)
  | cons y ys ih =>
    intro h x hx
    rw [lastHit] at h
    rcases hl : lastHit p ys with _ | j
    · rw [hl] at h
      rcases List.mem_cons.mp hx with hh | hm
      · subst hh
        by_cases hy : p x = true
        · rw [if_pos hy] at h; exact absurd h (by simp)
        · simpa using hy
      · exact ih hl x hm
    · rw [hl] at h
      exact absurd h (by simp)

/-- firstHit finds the first index at which the predicate holds. -/
theorem firstHit_at (p : Slot → Bool) :
    ∀ (l : List Slot) (j : Nat) (hj : j < l.length),
      p (l.get ⟨j, hj⟩) = true →
      (∀ i (hi : i < l.length), i < j → p (l.get ⟨i, hi⟩) = false) →
      firstHit p l = some j := by
  intro l
  induction l with
  | nil => intro j hj _ _; exact absurd hj (by simp)
  | cons x xs ih =>
    intro j hj hpj hprev
    rw [firstHit]
    cases j with
    | zero =>
      have hpx : p x = true := hpj
      rw [if_pos hpx]
    | succ j2 =>
      have hx : p x = false := hprev 0 (by simp) (Nat.succ_pos j2)
      rw [if_neg (by simp [hx])]
      have hxs := ih j2 (by simpa using hj) (by simpa using hpj)
        (fun i hi hij => by
          have := hprev (i + 1) (by simpa using hi) (by omega)
          simpa using this)
      rw [hxs]
      rfl

/-- lastHit returns an index at least as large as any hit. -/
theorem lastHit_ge (p : Slot → Bool) :
    ∀ (l : List Slot) (j : Nat) (hj : j < l.length),
      p (l.get ⟨j, hj⟩) = true →
      ∃ k, lastHit p l = some k ∧ j ≤ k := by
  intro l
  induction l with
  | nil => intro j hj _; exact absurd hj (by simp)
  | cons x xs ih =>
    intro j hj hpj
    rw [lastHit]
    cases j with
    | zero =>
      have hpx : p x = true := hpj
      rcases hl : lastHit p xs with _ | k
      · rw [if_pos hpx]
        exact ⟨0, rfl, Nat.le_refl 0⟩
      · exact ⟨k + 1, rfl, Nat.zero_le _⟩
    | succ j2 =>
      obtain ⟨k, hk, hjk⟩ := ih j2 (by simpa using hj) (by simpa using hpj)
      rw [hk]
      exact ⟨k + 1, rfl, by omega⟩

/-- What a successful lastHit guarantees: the hit index is in range, the
predicate holds there, and fails strictly beyond it. -/
theorem lastHit_spec (p : Slot → Bool) :
    ∀ (l : List Slot) (k : Nat), lastHit p l = some k →
      ∃ hk : k < l.length, p (l.get ⟨k, hk⟩) = true ∧
        ∀ i (hi : i < l.length), k < i → p (l.get ⟨i, hi⟩) = false := by
  intro l
  induction l with
  | nil => intro k h; exact absurd h (by rw [lastHit]; exact Option.noConfusion)
  | cons x xs ih =>
    intro k h
    rw [lastHit] at h
    rcases hl : lastHit p xs with _ | j
    · rw [hl] at h
      by_cases hx : p x = true
      · rw [if_pos hx] at h
        have hk0 : k = 0 := by
          injection h with h2
          omega
        subst hk0
        refine ⟨by simp, hx, ?_⟩
        intro i hi hik
        cases i with
        | zero => omega
        | succ i2 =>
          have hi2 : i2 < xs.length := by simpa using hi
          have := lastHit_none_all p xs hl (xs.get ⟨i2, hi2⟩) (List.get_mem xs i2 hi2)
          simpa using this
      · rw [if_neg hx] at h
        exact absurd h Option.noConfusion
    · rw [hl] at h
      have hk : k = j + 1 := by
        injection h with h2
        omega
      subst hk
      obtain ⟨hj, hpj, hmax⟩ := ih j hl
      refine ⟨by simpa using Nat.succ_lt_succ hj, by simpa using hpj, ?_⟩
      intro i hi hik
      cases i with
      | zero => omega
      | succ i2 =>
        have := hmax i2 (by simpa using hi) (by omega)
        simpa using this

/-- Scan result when an in-progress slot exists: the break returns the
first in-progress index, discarding the accumulator. -/
theorem prolongScan_firstHit (now : Nat) :
    ∀ (l : List Slot) (k idx : Nat) (acc : Option Nat),
      firstHit (inProgB now) l = some k →
      prolongScanAux now l idx acc = some (idx + k) := by
  intro l
  induction l with
  | nil => intro k idx acc h; exact absurd h (by rw [firstHit]; exact Option.noConfusion)
  | cons q rest ih =>
    intro k idx acc h
    obtain ⟨s, e⟩ := q
    rw [firstHit] at h
    rw [prolongScanAux]
    by_cases h1 : inProgB now (s, e) = true
    · rw [if_pos h1] at h
      have hk : k = 0 := by
        injection h with h2
        omega
      subst hk
      have h1p : s ≤ now ∧ now ≤ e := by
        simpa [inProgB, inProg] using h1
      rw [if_pos h1p]
      simp
    · rw [if_neg h1] at h
      rcases hf : firstHit (inProgB now) rest with _ | k2
      · rw [hf] at h
        exact absurd h (by simp)
      · rw [hf] at h
        have hk : k = k2 + 1 := by
          rw [Option.map_some'] at h
          injection h with h2
          omega
        subst hk
        have h1p : ¬ (s ≤ now ∧ now ≤ e) := by
          simpa [inProgB, inProg] using h1
        rw [if_neg h1p]
        by_cases h2 : e < now ∧ now - e < 120
        · rw [if_pos h2, ih k2 (idx + 1) (some idx) hf]
          exact congrArg some (by omega)
        · rw [if_neg h2, ih k2 (idx + 1) acc hf]
          exact congrArg some (by omega)

/-- Scan result when nothing qualifies: the accumulator survives. -/
theorem prolongScan_none (now : Nat) :
    ∀ (l : List Slot) (idx : Nat) (acc : Option Nat),
      (∀ x ∈ l, inProgB now x = false) →
      (∀ x ∈ l, lookbackB now x = false) →
      prolongScanAux now l idx acc = acc := by
  intro l
  induction l with
  | nil => intro idx acc _ _; rfl
  | cons q rest ih =>
    intro idx acc hf hl
    obtain ⟨s, e⟩ := q
    rw [prolongScanAux]
    have h1 : ¬ (s ≤ now ∧ now ≤ e) := by
      have := hf (s, e) (List.mem_cons_self _ _)
      simpa [inProgB, inProg] using this
    have h2 : ¬ (e < now ∧ now - e < 120) := by
      have := hl (s, e) (List.mem_cons_self _ _)
      simpa [lookbackB, lookback2h] using this
    rw [if_neg h1, if_neg h2]
    exact ih (idx + 1) acc (fun x hx => hf x (List.mem_cons_of_mem _ hx))
      (fun x hx => hl x (List.mem_cons_of_mem _ hx))

/-- Scan result without any in-progress slot: the last slot inside the
two-hour lookback window wins. -/
theorem prolongScan_lastHit (now : Nat) :
    ∀ (l : List Slot) (k idx : Nat) (acc : Option Nat),
      firstHit (inProgB now) l = none →
      lastHit (lookbackB now) l = some k →
      prolongScanAux now l idx acc = some (idx + k) := by
  intro l
  induction l with
  | nil => intro k idx acc _ h; exact absurd h (by rw [lastHit]; exact Option.noConfusion)
  | cons q rest ih =>
    intro k idx acc hf h
    obtain ⟨s, e⟩ := q
    rw [firstHit] at hf
    rw [lastHit] at h
    rw [prolongScanAux]
    by_cases h1 : inProgB now (s, e) = true
    · rw [if_pos h1] at hf
      exact absurd hf (by simp)
    · rw [if_neg h1] at hf
      have hfr : firstHit (inProgB now) rest = none := by
        rcases hx : firstHit (inProgB now) rest with _ | k2
        · rfl
        · rw [hx] at hf
          exact absurd hf (by simp)
      have h1p : ¬ (s ≤ now ∧ now ≤ e) := by
        simpa [inProgB, inProg] using h1
      rw [if_neg h1p]
      rcases hl : lastHit (lookbackB now) rest with _ | j
      · rw [hl] at h
        by_cases hlb : lookbackB now (s, e) = true
        · rw [if_pos hlb] at h
          have hk : k = 0 := by
            injection h with h2
            omega
          subst hk
          have h2p : e < now ∧ now - e < 120 := by
            simpa [lookbackB, lookback2h] using hlb
          rw [if_pos h2p]
          rw [prolongScan_none now rest (idx + 1) (some idx)
            (firstHit_none_all _ _ hfr) (lastHit_none_all _ _ hl)]
          exact congrArg some (by omega)
        · rw [if_neg hlb] at h
          exact absurd h Option.noConfusion
      · rw [hl] at h
        have hk : k = j + 1 := by
          injection h with h2
          omega
        subst hk
        by_cases h2 : e < now ∧ now - e < 120
        · rw [if_pos h2, ih j (idx + 1) (some idx) hfr hl]
          exact congrArg some (by omega)
        · rw [if_neg h2, ih j (idx + 1) acc hfr hl]
          exact congrArg some (by omega)

/-- In a gap-chained well-formed tail every slot starts strictly after
the end of the leading slot. -/
theorem chain_gap_all2 (a : Slot) :
    ∀ l, List.Chain (fun x y : Slot => x.2 < y.1) a l →
      (∀ p ∈ l, p.1 ≤ p.2) → ∀ b ∈ l, a.2 < b.1 := by
  intro l
  induction l generalizing a with
  | nil =>
    intro _ _ b hb
    exact absurd hb (List.not_mem_nil b)
  | cons c m ih =>
    intro hch hwf b hb
    cases hch with
    | cons h1 h2 =>
      rcases List.mem_cons.mp hb with hh | hm
      · subst hh; exact h1
      · have hc2 := ih c h2 (fun p hp => hwf p (List.mem_cons_of_mem _ hp)) b hm
        have hwc := hwf c (List.mem_cons_self _ _)
        omega

/-- A gap-chained well-formed list is pairwise gap-separated. -/
theorem pairwise_gap (l : List Slot)
    (hchain : List.Chain' (fun a b : Slot => a.2 < b.1) l)
    (hwf : ∀ p ∈ l, p.1 ≤ p.2) :
    List.Pairwise (fun a b : Slot => a.2 < b.1) l := by
  induction l with
  | nil => exact List.Pairwise.nil
  | cons a m ih =>
    have hc : List.Chain (fun x y : Slot => x.2 < y.1) a m := hchain
    have htail : List.Chain' (fun x y : Slot => x.2 < y.1) m := by
      cases m with
      | nil => exact List.chain'_nil
      | cons b k2 =>
        cases hc with
        | cons _ h2 => exact h2
    refine List.Pairwise.cons ?_ (ih htail (fun p hp => hwf p (List.mem_cons_of_mem _ hp)))
    exact fun b hb => chain_gap_all2 a m hc (fun p hp => hwf p (List.mem_cons_of_mem _ hp)) b hb

end ProlongLemmas

/-- Claim C6: in the prolong branch of modify_time_slots, for a non-empty
merged (sorted, gap-separated, well-formed) slot list the selected index
is the slot in progress at now when one exists; otherwise a slot inside
the two-hour lookback window whose end is the most recent among all such
slots; otherwise the last slot.  The selected slot keeps its start, gets
the new end E, and the list is re-merged; in particular prolonging
07:00-10:00 to 13:00 at now 09:00 yields 07:00-13:00. -/
theorem C6_prolong_selection (now E : Nat) (slots : List Slot)
    (hne : slots ≠ [])
    (hchain : List.Chain' (fun a b : Slot => a.2 < b.1) slots)
    (hwf : ∀ p ∈ slots, p.1 ≤ p.2) :
    (∀ j (hj : j < slots.length), inProg now (slots.get ⟨j, hj⟩) →
        slot_to_modify_prolong now slots = j)
  ∧ ((∀ p ∈ slots, ¬ inProg now p) →
      ∀ j (hj : j < slots.length), lookback2h now (slots.get ⟨j, hj⟩) →
        ∃ hk : slot_to_modify_prolong now slots < slots.length,
          lookback2h now (slots.get ⟨slot_to_modify_prolong now slots, hk⟩) ∧
          ∀ i (hi : i < slots.length), lookback2h now (slots.get ⟨i, hi⟩) →
            (slots.get ⟨i, hi⟩).2 ≤ (slots.get ⟨slot_to_modify_prolong now slots, hk⟩).2)
  ∧ ((∀ p ∈ slots, ¬ inProg now p) → (∀ p ∈ slots, ¬ lookback2h now p) →
      slot_to_modify_prolong now slots = slots.length - 1)
  ∧ modify_time_slots now slots "prolong" E
      = combine_time_slots (slots.set (slot_to_modify_prolong now slots)
          ((slots.getD (slot_to_modify_prolong now slots) (0, 0)).1, E))
  ∧ modify_time_slots 540 [(420, 600)] "prolong" 780 = [(420, 780)] := by
  have hpw := pairwise_gap slots hchain hwf
  refine ⟨?_, ?_, ?_, ?_, by decide⟩
  · intro j hj hpj
    have hfh : firstHit (inProgB now) slots = some j := by
      apply firstHit_at
      · simpa [inProgB] using hpj
      · intro i hi hij
        have hg := List.pairwise_iff_get.mp hpw ⟨i, hi⟩ ⟨j, hj⟩ hij
        simp only [inProgB, decide_eq_false_iff_not]
        intro hc
        obtain ⟨h1, h2⟩ := hc
        obtain ⟨h3, h4⟩ := hpj
        omega
    unfold slot_to_modify_prolong
    rw [prolongScan_firstHit now slots j 0 none hfh]
    simp
  · intro hnone j hj hlj
    have hfn : firstHit (inProgB now) slots = none := by
      apply firstHit_of_all_false
      intro x hx
      simp only [inProgB, decide_eq_false_iff_not]
      exact hnone x hx
    obtain ⟨k, hk, hjk⟩ :=
      lastHit_ge (lookbackB now) slots j hj (by simpa [lookbackB] using hlj)
    obtain ⟨hklen, hpk, hkmax⟩ := lastHit_spec (lookbackB now) slots k hk
    have hsel : slot_to_modify_prolong now slots = k := by
      unfold slot_to_modify_prolong
      rw [prolongScan_lastHit now slots k 0 none hfn hk]
      simp
    simp only [hsel]
    refine ⟨hklen, by simpa [lookbackB] using hpk, ?_⟩
    intro i hi hli
    rcases Nat.lt_trichotomy i k with hik | hik | hik
    · have hg := List.pairwise_iff_get.mp hpw ⟨i, hi⟩ ⟨k, hklen⟩ hik
      have hwk := hwf (slots.get ⟨k, hklen⟩) (List.get_mem slots k hklen)
      omega
    · subst hik
      exact Nat.le_refl _
    · have := hkmax i hi hik
      simp only [lookbackB, decide_eq_false_iff_not] at this
      exact absurd hli this
  · intro hnone hnolb
    have hfn : firstHit (inProgB now) slots = none := by
      apply firstHit_of_all_false
      intro x hx
      simp only [inProgB, decide_eq_false_iff_not]
      exact hnone x hx
    have hln : lastHit (lookbackB now) slots = none := by
      apply lastHit_of_all_false
      intro x hx
      simp only [lookbackB, decide_eq_false_iff_not]
      exact hnolb x hx
    unfold slot_to_modify_prolong
    rw [prolongScan_none now slots 0 none
      (firstHit_none_all _ _ hfn) (lastHit_none_all _ _ hln)]
    rfl
  · rw [modify_time_slots, if_neg hne, if_pos rfl]

/-- Witness for C6 at the scenario-B input (one slot 07:00-10:00, now
09:00, prolong to 13:00). -/
theorem C6_prolong_selection_witness :
    (∀ j (hj : j < ([(420, 600)] : List Slot).length),
        inProg 540 (([(420, 600)] : List Slot).get ⟨j, hj⟩) →
        slot_to_modify_prolong 540 [(420, 600)] = j)
  ∧ ((∀ p ∈ ([(420, 600)] : List Slot), ¬ inProg 540 p) →
      ∀ j (hj : j < ([(420, 600)] : List Slot).length),
        lookback2h 540 (([(420, 600)] : List Slot).get ⟨j, hj⟩) →
        ∃ hk : slot_to_modify_prolong 540 [(420, 600)] < ([(420, 600)] : List Slot).length,
          lookback2h 540 (([(420, 600)] : List Slot).get
            ⟨slot_to_modify_prolong 540 [(420, 600)], hk⟩) ∧
          ∀ i (hi : i < ([(420, 600)] : List Slot).length),
            lookback2h 540 (([(420, 600)] : List Slot).get ⟨i, hi⟩) →
            (([(420, 600)] : List Slot).get ⟨i, hi⟩).2 ≤
              (([(420, 600)] : List Slot).get
                ⟨slot_to_modify_prolong 540 [(420, 600)], hk⟩).2)
  ∧ ((∀ p ∈ ([(420, 600)] : List Slot), ¬ inProg 540 p) →
      (∀ p ∈ ([(420, 600)] : List Slot), ¬ lookback2h 540 p) →
      slot_to_modify_prolong 540 [(420, 600)] = ([(420, 600)] : List Slot).length - 1)
  ∧ modify_time_slots 540 [(420, 600)] "prolong" 780
      = combine_time_slots (([(420, 600)] : List Slot).set
          (slot_to_modify_prolong 540 [(420, 600)])
          ((([(420, 600)] : List Slot).getD
            (slot_to_modify_prolong 540 [(420, 600)]) (0, 0)).1, 780))
  ∧ modify_time_slots 540 [(420, 600)] "prolong" 780 = [(420, 780)] :=
  C6_prolong_selection 540 780 [(420, 600)] (by decide) (by simp) (by decide)

section RetentionLemmas

/-- A dictionary write only introduces its own key. -/
theorem setAssoc_keys {α β : Type} [DecidableEq α] (k : α) (v : β) :
    ∀ (l : List (α × β)) (kv : α × β), kv ∈ setAssoc l k v → kv.1 = k ∨ kv ∈ l := by
  intro l
  induction l with
  | nil =>
    intro kv h
    rw [setAssoc] at h
    have := List.mem_singleton.mp h
    subst this
    exact Or.inl rfl
  | cons p rest ih =>
    intro kv h
    rw [setAssoc] at h
    by_cases hp : p.1 = k
    · rw [if_pos hp] at h
      rcases List.mem_cons.mp h with hh | hm
      · subst hh; exact Or.inl rfl
      · exact Or.inr (List.mem_cons_of_mem _ hm)
    · rw [if_neg hp] at h
      rcases List.mem_cons.mp h with hh | hm
      · subst hh; exact Or.inr (List.mem_cons_self _ _)
      · rcases ih kv hm with h1 | h2
        · exact Or.inl h1
        · exact Or.inr (List.mem_cons_of_mem _ h2)

/-- Writing one day keeps every key at or after today when the incoming
map and the written day satisfy that bound. -/
theorem merge_day_keys (todayTs : Nat)
    (acc : List (Nat × List (String × HoursF)))
    (day : Nat × List ((Nat × Nat) × List Slot))
    (hacc : ∀ kv ∈ acc, todayTs ≤ kv.1) (hday : todayTs ≤ day.1) :
    ∀ kv ∈ merge_day acc day, todayTs ≤ kv.1 := by
  intro kv hkv
  rcases setAssoc_keys day.1 _ acc kv hkv with h1 | h2
  · rw [h1]; exact hday
  · exact hacc kv h2

/-- The date fold keeps every key at or after today. -/
theorem foldl_merge_day_keys (todayTs : Nat) :
    ∀ (schedules : List (Nat × List ((Nat × Nat) × List Slot)))
      (acc : List (Nat × List (String × HoursF))),
      (∀ kv ∈ acc, todayTs ≤ kv.1) →
      (∀ p ∈ schedules, todayTs ≤ p.1) →
      ∀ kv ∈ schedules.foldl merge_day acc, todayTs ≤ kv.1 := by
  intro schedules
  induction schedules with
  | nil => intro acc hacc _ kv hkv; exact hacc kv hkv
  | cons d ds ih =>
    intro acc hacc hss kv hkv
    rw [List.foldl_cons] at hkv
    exact ih (merge_day acc d)
      (merge_day_keys todayTs acc d hacc (hss d (List.mem_cons_self _ _)))
      (fun p hp => hss p (List.mem_cons_of_mem _ hp)) kv hkv

/-- Every key surviving cleanup_old_data is at or after today. -/
theorem cleanup_keys (todayTs : Nat) (d : DocT) :
    ∀ kv ∈ (cleanup_old_data todayTs d).fact.data, todayTs ≤ kv.1 := by
  intro kv hkv
  have h1 : kv ∈ d.fact.data.filter (fun kv => ¬ kv.1 < todayTs) := hkv
  have h2 := List.of_mem_filter h1
  simp only [decide_not, Bool.not_eq_true', decide_eq_false_iff_not] at h2
  omega

end RetentionLemmas

/-- Claim C8: after the persisted-state merger runs, every day key of the
resulting document is at or after the computed local-midnight timestamp
of today, and the today field equals that timestamp; the pruning runs
even when no new schedules are merged (with an empty schedule set the
data is exactly the cleaned-up previous data). -/
theorem C8_retention (todayTs : Nat)
    (schedules : List (Nat × List ((Nat × Nat) × List Slot)))
    (ex : Option DocT)
    (h : ∀ p ∈ schedules, todayTs ≤ p.1) :
    (∀ kv ∈ (generate_json todayTs schedules ex).fact.data, todayTs ≤ kv.1)
  ∧ (generate_json todayTs schedules ex).fact.today = todayTs
  ∧ (∀ d : DocT, (generate_json todayTs [] (some d)).fact.data
      = (cleanup_old_data todayTs d).fact.data) := by
  refine ⟨?_, rfl, fun d => rfl⟩
  intro kv hkv
  exact foldl_merge_day_keys todayTs schedules _
    (cleanup_keys todayTs _) h kv hkv

/-- Witness for C8: a previous document holding a stale day 100 and a
current day 250, cleaned at today 200 and merged with a fresh day 300. -/
theorem C8_retention_witness :
    (∀ kv ∈ (generate_json 200 [(300, [((1, 0), [(420, 600)])])]
        (some ⟨⟨[(100, []), (250, [])], 100⟩⟩)).fact.data, 200 ≤ kv.1)
  ∧ (generate_json 200 [(300, [((1, 0), [(420, 600)])])]
        (some ⟨⟨[(100, []), (250, [])], 100⟩⟩)).fact.today = 200
  ∧ (∀ d : DocT, (generate_json 200 [] (some d)).fact.data
      = (cleanup_old_data 200 d).fact.data) :=
  C8_retention 200 [(300, [((1, 0), [(420, 600)])])]
    (some ⟨⟨[(100, []), (250, [])], 100⟩⟩) (by decide)
